import Mathlib

/-!
A shallow embedding of the protobuf.js `Writer` (src/writer.js) together with
proofs about its buffer-growth strategy, scalar varint encoders, zigzag
mapping, and the fork/reset/finish stack machine.

Conventions of the embedding:
* a `Uint8Array`/`Buffer` is a `List Nat` whose elements are kept below 256 by
  masking at every store (a typed-array store coerces its value to 8 bits);
* JavaScript 32-bit operations are expressed with explicit `% 2^32`
  arithmetic on `Nat`/`Int`;
* `null` buffers are `Option.none`;
* operations that can throw in JavaScript (`slice` on `null`,
  `TypedArray.set` with a `null` or oversized source) return an explicit
  error result where a claim depends on them.

The mutable global `Writer.BUFFER_SIZE` (default 1024) is threaded through as
an explicit parameter `bs`.
-/

namespace Protobuf

/-- The writer state of src/writer.js: active buffer `buf` (`null` when
absent), cursor `pos`, capacity `len`, completed chunks `bufs`, and the
forked-states stack `_stack` (head = most recent push). -/
structure Writer where
  buf : Option (List Nat)
  pos : Nat
  len : Nat
  bufs : List (List Nat)
  stack : List (List (List Nat))
deriving DecidableEq

/-- A freshly constructed writer: no buffer, everything empty. -/
def W0 : Writer := { buf := none, pos := 0, len := 0, bufs := [], stack := [] }

/-- `expand(writer, writeLength)` of src/writer.js lines 84-92: if `pos` is
nonzero, seal `buf[0:pos)` onto `bufs`; then allocate a fresh zero-filled
buffer of size `max writeLength BUFFER_SIZE` and reset the cursor.
`alloc` zero-fills in both variants (`new Uint8Array(size)` / `Buffer.alloc`). -/
def expand (bs : Nat) (w : Writer) (writeLength : Nat) : Writer :=
  let bufs := if w.pos ≠ 0 then w.bufs ++ [(w.buf.getD []).take w.pos] else w.bufs
  let size := max writeLength bs
  { w with bufs := bufs, buf := some (List.replicate size 0), len := size, pos := 0 }

/-- `this.buf[this.pos++] = v`: a typed-array store masks the value to 8 bits
and silently ignores an out-of-range index (while still bumping `pos`). -/
def storeByte (w : Writer) (v : Nat) : Writer :=
  { w with buf := some ((w.buf.getD []).set w.pos (v % 256)), pos := w.pos + 1 }

/-- The capacity check `if (this.pos + n > this.len) expand(this, n)` that
precedes every scalar write. -/
def ensureLen (bs : Nat) (w : Writer) (n : Nat) : Writer :=
  if w.len < w.pos + n then expand bs w n else w

/-- `value >>>= 0`: coercion of an integer to an unsigned 32-bit value. -/
def toUint32 (v : Int) : Nat := (v % 4294967296).toNat

/-- The varint byte-count precomputation of write_uint32 (lines 114-118). -/
def thresholds (v : Nat) : Nat :=
  if v < 128 then 1
  else if v < 16384 then 2
  else if v < 2097152 then 3
  else if v < 268435456 then 4
  else 5

/-- Fuel-indexed form of the varint byte loop; `v` itself is always enough
fuel since the loop argument strictly decreases (see `varintEnc_eq`). -/
def varintGo : Nat → Nat → List Nat
  | 0, v => [v]
  | f + 1, v => if 127 < v then (v % 128 + 128) :: varintGo f (v / 128) else [v]

/-- The bytes produced by the varint loop of write_uint32 (lines 121-125):
while `value > 127` store `value | 128` (which masked to 8 bits is
`value % 128 + 128`) and shift by 7 (`value / 128`); finally store `value`. -/
def varintEnc (v : Nat) : List Nat := varintGo v v

/-- Little-end-first base-128 value of a byte list (7 data bits per byte). -/
def varintVal (e : List Nat) : Nat :=
  e.foldr (fun b acc => b % 128 + 128 * acc) 0

/-- Fuel-indexed form of the varint store loop of write_uint32. -/
def writeVarintGo : Nat → Writer → Nat → Writer
  | 0, w, v => storeByte w v
  | f + 1, w, v =>
    if 127 < v then writeVarintGo f (storeByte w (v % 128 + 128)) (v / 128)
    else storeByte w v

/-- The varint store loop of write_uint32, acting on the writer state. -/
def writeVarintLoop (w : Writer) (v : Nat) : Writer := writeVarintGo v w v

/-- `write_uint32` (lines 112-127): coerce to uint32, precompute the byte
count, ensure capacity once, then run the store loop. -/
def Writer.uint32 (bs : Nat) (w : Writer) (value : Int) : Writer :=
  let v := toUint32 value
  writeVarintLoop (ensureLen bs w (thresholds v)) v

/-- `WriterPrototype.int32 = WriterPrototype.uint32` (line 135). -/
def Writer.int32 : Nat → Writer → Int → Writer := Writer.uint32

/-- `value << 1 ^ value >> 31` in 32-bit arithmetic (line 143): the left
shift wraps to a signed 32-bit value; for a 32-bit `value`, `value >> 31` is
`-1` when negative (xor with all ones is `fun x => -x - 1`) and `0` otherwise. -/
def int32of (x : Int) : Int :=
  if x % 4294967296 < 2147483648 then x % 4294967296 else x % 4294967296 - 4294967296

/-- The 32-bit zigzag premap used by sint32/sfixed32. -/
def zigzag32 (v : Int) : Int :=
  if v < 0 then -(int32of (2 * v)) - 1 else int32of (2 * v)

/-- `write_sint32` (lines 142-144): zigzag, then uint32. -/
def Writer.sint32 (bs : Nat) (w : Writer) (value : Int) : Writer :=
  Writer.uint32 bs w (zigzag32 value)

/-- The unsigned 32-bit value a sint32 write encodes. -/
def zigzagN (v : Int) : Nat := toUint32 (zigzag32 v)

/-- Modelled from the spec: the decoder's `unzigzag` (the reader is outside
src/). The spec calls zigzag a bijective mapping of signed to unsigned that
keeps small magnitudes small: even values decode to `n / 2`, odd values to
`-(n / 2) - 1`. -/
def unzigzag32 (n : Nat) : Int :=
  if n % 2 = 0 then ((n / 2 : Nat) : Int) else -((n / 2 : Nat) : Int) - 1

/-- `write_tag` (lines 100-105): one byte `id << 3 | wireType & 7` in 32-bit
arithmetic; the low 3 bits of `id << 3` are zero, so the or is an addition;
the store masks to 8 bits. -/
def Writer.tag (bs : Nat) (w : Writer) (id wireType : Nat) : Writer :=
  storeByte (ensureLen bs w 1) (id * 8 % 4294967296 + wireType % 8)

/-- `write_bool` (lines 180-185): one byte, 1 or 0. -/
def Writer.bool (bs : Nat) (w : Writer) (value : Bool) : Writer :=
  storeByte (ensureLen bs w 1) (if value then 1 else 0)

/-- `write_fixed32` (lines 192-201): coerce to uint32, then store the four
little-endian bytes `v`, `v >>> 8`, `v >>> 16`, `v >>> 24` (each masked). -/
def Writer.fixed32 (bs : Nat) (w : Writer) (value : Int) : Writer :=
  let w := ensureLen bs w 4
  let v := toUint32 value
  storeByte (storeByte (storeByte (storeByte w v) (v / 256)) (v / 65536)) (v / 16777216)

/-- `write_sfixed32` (lines 208-210): zigzag, then fixed32. -/
def Writer.sfixed32 (bs : Nat) (w : Writer) (value : Int) : Writer :=
  Writer.fixed32 bs w (zigzag32 value)

/-- `TypedArray.set(src, off)` in the in-range case: overwrite `dst` from
offset `off` with `src` (a raw copy; byte conversion, when the source is a
plain array, happens at the call site). -/
def writeAt (dst : List Nat) (off : Nat) (src : List Nat) : List Nat :=
  dst.take off ++ src ++ dst.drop (off + src.length)

/-- `write_bytes` (lines 264-274): varint length prefix, then, when the
payload is nonempty, ensure capacity and bulk-copy the payload at `pos`
(`set` converts each element of a plain-array source to 8 bits). -/
def Writer.bytes (bs : Nat) (w : Writer) (value : List Nat) : Writer :=
  let n := value.length
  let w := Writer.uint32 bs w (n : Int)
  if n ≠ 0 then
    let w := ensureLen bs w n
    { w with buf := some (writeAt (w.buf.getD []) w.pos (value.map (fun x => x % 256))),
             pos := w.pos + n }
  else w

/-- `fork` (lines 291-309): when a buffer is present and `pos` is nonzero,
seal `buf[0:pos)` (or the whole buffer when full), push the chunk list onto
the stack, and start the inner scope on the remaining capacity. -/
def Writer.fork (w : Writer) : Writer :=
  match w.buf with
  | some b =>
    if w.pos ≠ 0 then
      if w.pos < w.len then
        { buf := some (b.drop w.pos), pos := 0, len := (b.drop w.pos).length,
          bufs := [], stack := (w.bufs ++ [b.take w.pos]) :: w.stack }
      else
        { buf := none, pos := 0, len := 0,
          bufs := [], stack := (w.bufs ++ [b]) :: w.stack }
    else w
  | none => w

/-- `reset` (lines 317-325): restore the popped chunk list (or an empty one),
clear the buffer and counters. Note that with `clearForkedStates` the code
only empties `bufs`; `_stack` itself is left untouched. -/
def Writer.reset (clear : Bool) (w : Writer) : Writer :=
  let p : List (List Nat) × List (List (List Nat)) :=
    match w.stack with
    | [] => ([], w.stack)
    | top :: rest => if clear then ([], w.stack) else (top, rest)
  { buf := none, pos := 0, len := 0, bufs := p.1, stack := p.2 }

/-- Result of a `finish` call: normal return of a byte sequence, return of
the JavaScript `null` value, or a thrown exception. -/
inductive FinishResult where
  | ok (bytes : List Nat)
  | nullRes
  | err
deriving DecidableEq

/-- `TypedArray.set(src, off)` including its failure mode: `none` models the
RangeError thrown when the source does not fit. -/
def arraySet (dst src : List Nat) (off : Nat) : Option (List Nat) :=
  if off + src.length ≤ dst.length then some (writeAt dst off src) else none

/-- The chunk-copying `while` loop of finish (lines 351-354): copy each chunk
at the running offset. -/
def setAll (arr : List Nat) (chunks : List (List Nat)) (off : Nat) :
    Option (List Nat × Nat) :=
  match chunks with
  | [] => some (arr, off)
  | c :: cs =>
    match arraySet arr c off with
    | some arr2 => setAll arr2 cs (off + c.length)
    | none => none

/-- Generic `finish` (lines 332-357): snapshot the state, `reset`, slice the
written prefix of the active buffer when it is only partly used, return it
alone when there are no chunks (the `null` buffer is returned as-is), else
concatenate chunks and prefix into a freshly allocated array; `concat.set`
with a `null` buffer throws. -/
def Writer.finish (clear : Bool) (w : Writer) : FinishResult × Writer :=
  let bufs := w.bufs
  let buf := w.buf
  let pos := w.pos
  let len := w.len
  let buf2 : Option (List Nat) :=
    match buf with
    | some b => if pos < len then (if pos ≠ 0 then some (b.take pos) else some []) else some b
    | none => none
  let res : FinishResult :=
    if bufs.isEmpty then
      match buf2 with
      | some b => .ok b
      | none => .nullRes
    else
      let total := pos + (bufs.map List.length).sum
      match setAll (List.replicate total 0) bufs 0 with
      | none => .err
      | some pr =>
        match buf2 with
        | none => .err
        | some b2 =>
          match arraySet pr.1 b2 pr.2 with
          | some out => .ok out
          | none => .err
  (res, Writer.reset clear w)

/-- `BufferWriter` `finish_buffer` (lines 457-467): with no chunks return
`buf.slice(0, pos)` (throws on a `null` buffer); otherwise push the written
prefix when `pos` is nonzero (slicing throws on a `null` buffer) and return
`Buffer.concat(bufs)`. -/
def BufferWriter.finish (clear : Bool) (w : Writer) : FinishResult × Writer :=
  let bufs := w.bufs
  let buf := w.buf
  let pos := w.pos
  let res : FinishResult :=
    if bufs.isEmpty then
      match buf with
      | none => .err
      | some b => .ok (b.take pos)
    else
      match (if pos ≠ 0 then
               match buf with
               | none => none
               | some b => some (bufs ++ [b.take pos])
             else some bufs : Option (List (List Nat))) with
      | none => .err
      | some bs2 => .ok bs2.flatten
  (res, Writer.reset clear w)

/-- The bytes written so far in the current (innermost open) scope: sealed
chunks in order, then the written prefix of the active buffer. -/
def scope (w : Writer) : List Nat := w.bufs.flatten ++ (w.buf.getD []).take w.pos

/-- Well-formedness of a writer state: the cursor is within capacity and the
capacity is the length of the active buffer (zero when absent). -/
def WF (w : Writer) : Prop := w.pos ≤ w.len ∧ (w.buf.getD []).length = w.len

instance (w : Writer) : Decidable (WF w) := by unfold WF; infer_instance

/-! ### The fuel-indexed loops equal the unbounded while loops -/

theorem varintGo_congr : ∀ f f' v, v ≤ f → v ≤ f' → varintGo f v = varintGo f' v := by
  intro f
  induction f with
  | zero =>
    intro f' v hv _
    have hv0 : v = 0 := Nat.le_zero.mp hv
    subst hv0
    cases f' <;> simp [varintGo]
  | succ f ih =>
    intro f' v hv hv'
    cases f' with
    | zero =>
      have hv0 : v = 0 := Nat.le_zero.mp hv'
      subst hv0
      simp [varintGo]
    | succ f'' =>
      simp only [varintGo]
      split
      · next h => exact congrArg _ (ih f'' (v / 128) (by omega) (by omega))
      · rfl

/-- `varintEnc` satisfies the defining equation of the source's while loop. -/
theorem varintEnc_eq (v : Nat) :
    varintEnc v = if 127 < v then (v % 128 + 128) :: varintEnc (v / 128) else [v] := by
  unfold varintEnc
  cases v with
  | zero => simp [varintGo]
  | succ n =>
    simp only [varintGo]
    split
    · next h => exact congrArg _ (varintGo_congr n ((n + 1) / 128) ((n + 1) / 128) (by omega) (by omega))
    · rfl

theorem writeVarintGo_congr :
    ∀ f f' v w, v ≤ f → v ≤ f' → writeVarintGo f w v = writeVarintGo f' w v := by
  intro f
  induction f with
  | zero =>
    intro f' v w hv _
    have hv0 : v = 0 := Nat.le_zero.mp hv
    subst hv0
    cases f' <;> simp [writeVarintGo]
  | succ f ih =>
    intro f' v w hv hv'
    cases f' with
    | zero =>
      have hv0 : v = 0 := Nat.le_zero.mp hv'
      subst hv0
      simp [writeVarintGo]
    | succ f'' =>
      simp only [writeVarintGo]
      split
      · next h => exact ih f'' (v / 128) _ (by omega) (by omega)
      · rfl

/-- `writeVarintLoop` satisfies the defining equation of the source's loop. -/
theorem writeVarintLoop_eq (w : Writer) (v : Nat) :
    writeVarintLoop w v =
      if 127 < v then writeVarintLoop (storeByte w (v % 128 + 128)) (v / 128)
      else storeByte w v := by
  unfold writeVarintLoop
  cases v with
  | zero => simp [writeVarintGo]
  | succ n =>
    simp only [writeVarintGo]
    split
    · next h =>
      exact writeVarintGo_congr n ((n + 1) / 128) ((n + 1) / 128) _ (by omega) (by omega)
    · rfl

/-! ### Varint length and shape laws -/

theorem varintEnc_length_pos (v : Nat) : 1 ≤ (varintEnc v).length := by
  rw [varintEnc_eq]
  split <;> simp

theorem varintEnc_len_le : ∀ n v, v < 128 ^ (n + 1) → (varintEnc v).length ≤ n + 1 := by
  intro n
  induction n with
  | zero =>
    intro v hv
    rw [varintEnc_eq]
    split
    · next h => omega
    · simp
  | succ n ih =>
    intro v hv
    rw [varintEnc_eq]
    split
    · next h =>
      have hd : v / 128 < 128 ^ (n + 1) := by
        rw [Nat.div_lt_iff_lt_mul (by omega)]
        calc v < 128 ^ (n + 2) := hv
        _ = 128 ^ (n + 1) * 128 := by ring
      simpa using Nat.add_le_add_left (ih (v / 128) hd) 1
    · simp

theorem varintEnc_len_ge : ∀ n v, 128 ^ n ≤ v → n + 1 ≤ (varintEnc v).length := by
  intro n
  induction n with
  | zero => intro v _; exact varintEnc_length_pos v
  | succ n ih =>
    intro v hv
    have h127 : 127 < v := by
      have : (128 : Nat) ≤ 128 ^ (n + 1) := Nat.le_self_pow (by omega) 128
      omega
    rw [varintEnc_eq, if_pos h127]
    have hd : 128 ^ n ≤ v / 128 := by
      rw [Nat.le_div_iff_mul_le (by omega)]
      calc 128 ^ n * 128 = 128 ^ (n + 1) := by ring
      _ ≤ v := hv
    simpa using Nat.add_le_add_left (ih (v / 128) hd) 1

/-- The byte-count precomputation of write_uint32 agrees with the number of
bytes the loop emits, for every unsigned 32-bit value. -/
theorem varintEnc_length (v : Nat) (hv : v < 4294967296) :
    (varintEnc v).length = thresholds v := by
  unfold thresholds
  split_ifs with h1 h2 h3 h4
  · exact le_antisymm (varintEnc_len_le 0 v (by norm_num; omega)) (varintEnc_length_pos v)
  · exact le_antisymm (varintEnc_len_le 1 v (by norm_num; omega))
      (varintEnc_len_ge 1 v (by norm_num; omega))
  · exact le_antisymm (varintEnc_len_le 2 v (by norm_num; omega))
      (varintEnc_len_ge 2 v (by norm_num; omega))
  · exact le_antisymm (varintEnc_len_le 3 v (by norm_num; omega))
      (varintEnc_len_ge 3 v (by norm_num; omega))
  · exact le_antisymm (varintEnc_len_le 4 v (by norm_num; omega))
      (varintEnc_len_ge 4 v (by norm_num; omega))

/-- Every byte of a varint except the last carries the 0x80 continuation bit;
the last byte does not; the little-end-first base-128 value is the input. -/
theorem varintEnc_form : ∀ v : Nat,
    (∀ x ∈ (varintEnc v).dropLast, 128 ≤ x ∧ x < 256) ∧
    (∀ x ∈ (varintEnc v).drop ((varintEnc v).length - 1), x < 128) ∧
    varintVal (varintEnc v) = v := by
  intro v
  induction v using Nat.strong_induction_on with
  | _ v ih =>
    rw [varintEnc_eq]
    split
    · next h =>
      obtain ⟨ih1, ih2, ih3⟩ := ih (v / 128) (Nat.div_lt_self (by omega) (by omega))
      have hpos := varintEnc_length_pos (v / 128)
      have hne : varintEnc (v / 128) ≠ [] := by
        intro hc
        rw [hc] at hpos
        simp at hpos
      refine ⟨?_, ?_, ?_⟩
      · intro x hx
        rw [List.dropLast_cons_of_ne_nil hne] at hx
        rcases List.mem_cons.mp hx with hx | hx
        · omega
        · exact ih1 x hx
      · intro x hx
        obtain ⟨m, hm⟩ : ∃ m, (varintEnc (v / 128)).length = m + 1 :=
          ⟨(varintEnc (v / 128)).length - 1, by omega⟩
        have hlen : ((v % 128 + 128) :: varintEnc (v / 128)).length - 1 = m + 1 := by
          simp [hm]
        rw [hlen, List.drop_succ_cons] at hx
        have hm' : (varintEnc (v / 128)).length - 1 = m := by omega
        rw [← hm'] at hx
        exact ih2 x hx
      · simp only [varintVal, List.foldr_cons]
        have hv : varintVal (varintEnc (v / 128)) = v / 128 := ih3
        simp only [varintVal] at hv
        rw [hv]
        omega
    · next h =>
      refine ⟨by simp, ?_, by simp [varintVal]; omega⟩
      intro x hx
      simp at hx
      omega

/-! ### State lemmas for the primitive buffer operations -/

theorem expand_spec (bs : Nat) (w : Writer) (n : Nat) :
    WF (expand bs w n) ∧ scope (expand bs w n) = scope w ∧
    (expand bs w n).pos = 0 ∧ (expand bs w n).len = max n bs ∧
    (expand bs w n).buf = some (List.replicate (max n bs) 0) ∧
    (expand bs w n).stack = w.stack := by
  refine ⟨⟨by simp [expand], by simp [expand]⟩, ?_, by simp [expand], by simp [expand],
    by simp [expand], by simp [expand]⟩
  by_cases hp : w.pos = 0 <;> simp [expand, scope, hp]

theorem storeByte_spec (w : Writer) (v : Nat) (h : WF w) (hp : w.pos < w.len) :
    WF (storeByte w v) ∧ scope (storeByte w v) = scope w ++ [v % 256] ∧
    (storeByte w v).pos = w.pos + 1 ∧ (storeByte w v).len = w.len ∧
    (storeByte w v).bufs = w.bufs ∧ (storeByte w v).stack = w.stack ∧
    (storeByte w v).buf.isSome := by
  obtain ⟨hpl, hbl⟩ := h
  have hlt : w.pos < (w.buf.getD []).length := by omega
  refine ⟨⟨by simpa [storeByte] using hp, by simp [storeByte]; omega⟩, ?_,
    rfl, rfl, rfl, rfl, rfl⟩
  simp only [scope, storeByte, Option.getD_some, List.append_assoc]
  congr 1
  rw [List.set_eq_take_cons_drop _ hlt]
  have key : ∀ (l1 l2 : List Nat) (x : Nat), l1.length = w.pos →
      List.take (w.pos + 1) (l1 ++ x :: l2) = l1 ++ [x] := by
    intro l1 l2 x hl
    rw [← hl, List.take_append]
    simp
  rw [key _ _ _ (List.length_take_of_le (by omega))]

theorem ensureLen_spec (bs : Nat) (w : Writer) (n : Nat) (h : WF w) :
    WF (ensureLen bs w n) ∧ scope (ensureLen bs w n) = scope w ∧
    (ensureLen bs w n).pos + n ≤ (ensureLen bs w n).len ∧
    (ensureLen bs w n).stack = w.stack := by
  unfold ensureLen
  split
  · next hlt =>
    obtain ⟨h1, h2, h3, h4, _, h6⟩ := expand_spec bs w n
    exact ⟨h1, h2, by omega, h6⟩
  · next hge => exact ⟨h, rfl, by omega, rfl⟩

theorem writeVarint_spec : ∀ (v : Nat) (w : Writer), WF w →
    w.pos + (varintEnc v).length ≤ w.len →
    WF (writeVarintLoop w v) ∧
    scope (writeVarintLoop w v) = scope w ++ varintEnc v ∧
    (writeVarintLoop w v).pos = w.pos + (varintEnc v).length ∧
    (writeVarintLoop w v).len = w.len ∧
    (writeVarintLoop w v).bufs = w.bufs ∧
    (writeVarintLoop w v).stack = w.stack ∧
    (writeVarintLoop w v).buf.isSome := by
  intro v
  induction v using Nat.strong_induction_on with
  | _ v ih =>
    intro w hwf hcap
    rw [writeVarintLoop_eq]
    rw [varintEnc_eq] at hcap ⊢
    split
    · next h =>
      rw [if_pos h] at hcap
      simp only [List.length_cons] at hcap
      obtain ⟨s1, s2, s3, s4, s5, s6, s7⟩ :=
        storeByte_spec w (v % 128 + 128) hwf (by omega)
      obtain ⟨i1, i2, i3, i4, i5, i6, i7⟩ :=
        ih (v / 128) (Nat.div_lt_self (by omega) (by omega))
          (storeByte w (v % 128 + 128)) s1 (by omega)
      have hb : (v % 128 + 128) % 256 = v % 128 + 128 := by omega
      refine ⟨i1, ?_, by simp only [List.length_cons]; omega, by omega,
        by rw [i5, s5], by rw [i6, s6], i7⟩
      rw [i2, s2, hb, List.append_assoc]
      rfl
    · next h =>
      rw [if_neg h] at hcap
      simp only [List.length_singleton] at hcap
      obtain ⟨s1, s2, s3, s4, s5, s6, s7⟩ := storeByte_spec w v hwf (by omega)
      have hb : v % 256 = v := by omega
      refine ⟨s1, by rw [s2, hb], by simp only [List.length_singleton]; exact s3,
        s4, s5, s6, s7⟩

/-- Summary of a scalar write for the claims: well-formedness is preserved,
the current scope gains exactly the encoded bytes, the fork stack is
untouched, and the writer ends with an active buffer. -/
theorem uint32_spec (bs : Nat) (w : Writer) (value : Int) (h : WF w) :
    WF (Writer.uint32 bs w value) ∧
    scope (Writer.uint32 bs w value) = scope w ++ varintEnc (toUint32 value) ∧
    (Writer.uint32 bs w value).stack = w.stack ∧
    (Writer.uint32 bs w value).buf.isSome := by
  have hv : toUint32 value < 4294967296 := by
    unfold toUint32
    omega
  obtain ⟨e1, e2, e3, e4⟩ := ensureLen_spec bs w (thresholds (toUint32 value)) h
  have hlen := varintEnc_length (toUint32 value) hv
  obtain ⟨i1, i2, i3, i4, i5, i6, i7⟩ :=
    writeVarint_spec (toUint32 value) (ensureLen bs w (thresholds (toUint32 value)))
      e1 (by omega)
  exact ⟨i1, by rw [Writer.uint32, i2, e2], by rw [Writer.uint32, i6, e4], i7⟩

theorem tag_spec (bs : Nat) (w : Writer) (id wireType : Nat) (h : WF w) :
    WF (Writer.tag bs w id wireType) ∧
    scope (Writer.tag bs w id wireType) =
      scope w ++ [(id * 8 % 4294967296 + wireType % 8) % 256] ∧
    (Writer.tag bs w id wireType).stack = w.stack ∧
    (Writer.tag bs w id wireType).buf.isSome := by
  obtain ⟨e1, e2, e3, e4⟩ := ensureLen_spec bs w 1 h
  obtain ⟨s1, s2, s3, s4, s5, s6, s7⟩ :=
    storeByte_spec (ensureLen bs w 1) (id * 8 % 4294967296 + wireType % 8) e1 (by omega)
  exact ⟨s1, by rw [Writer.tag, s2, e2], by rw [Writer.tag, s6, e4], s7⟩

theorem bool_spec (bs : Nat) (w : Writer) (value : Bool) (h : WF w) :
    WF (Writer.bool bs w value) ∧
    scope (Writer.bool bs w value) = scope w ++ [if value then 1 else 0] ∧
    (Writer.bool bs w value).stack = w.stack ∧
    (Writer.bool bs w value).buf.isSome := by
  obtain ⟨e1, e2, e3, e4⟩ := ensureLen_spec bs w 1 h
  obtain ⟨s1, s2, s3, s4, s5, s6, s7⟩ :=
    storeByte_spec (ensureLen bs w 1) (if value then 1 else 0) e1 (by omega)
  refine ⟨s1, ?_, by rw [Writer.bool, s6, e4], s7⟩
  rw [Writer.bool, s2, e2]
  cases value <;> simp

/-- The four little-endian bytes stored by write_fixed32. -/
def fixedBytes32 (v : Nat) : List Nat :=
  [v % 256, v / 256 % 256, v / 65536 % 256, v / 16777216 % 256]

theorem fixed32_spec (bs : Nat) (w : Writer) (value : Int) (h : WF w) :
    WF (Writer.fixed32 bs w value) ∧
    scope (Writer.fixed32 bs w value) = scope w ++ fixedBytes32 (toUint32 value) ∧
    (Writer.fixed32 bs w value).stack = w.stack ∧
    (Writer.fixed32 bs w value).buf.isSome := by
  obtain ⟨e1, e2, e3, e4⟩ := ensureLen_spec bs w 4 h
  set w0 := ensureLen bs w 4 with hw0
  set v := toUint32 value with hv
  obtain ⟨a1, a2, a3, a4, a5, a6, a7⟩ := storeByte_spec w0 v e1 (by omega)
  obtain ⟨b1, b2, b3, b4, b5, b6, b7⟩ :=
    storeByte_spec (storeByte w0 v) (v / 256) a1 (by omega)
  obtain ⟨c1, c2, c3, c4, c5, c6, c7⟩ :=
    storeByte_spec (storeByte (storeByte w0 v) (v / 256)) (v / 65536) b1 (by omega)
  obtain ⟨d1, d2, d3, d4, d5, d6, d7⟩ :=
    storeByte_spec (storeByte (storeByte (storeByte w0 v) (v / 256)) (v / 65536))
      (v / 16777216) c1 (by omega)
  refine ⟨d1, ?_, by rw [Writer.fixed32, ← hw0, ← hv, d6, c6, b6, a6, e4], d7⟩
  rw [Writer.fixed32, ← hw0, ← hv, d2, c2, b2, a2, e2]
  simp [fixedBytes32]

theorem writeAt_spec (b src : List Nat) (off : Nat)
    (hfit : off + src.length ≤ b.length) :
    (writeAt b off src).length = b.length ∧
    (writeAt b off src).take (off + src.length) = b.take off ++ src := by
  constructor
  · simp only [writeAt, List.length_append, List.length_take, List.length_drop]
    omega
  · have h1 : (b.take off).length = off := List.length_take_of_le (by omega)
    rw [writeAt, List.append_assoc]
    have key : ∀ l1 l2 l3 : List Nat, l1.length = off → l2.length = src.length →
        (l1 ++ (l2 ++ l3)).take (off + src.length) = l1 ++ l2 := by
      intro l1 l2 l3 k1 k2
      rw [← k1, ← k2, List.take_append, List.take_left]
    exact key _ _ _ h1 rfl

theorem bytes_spec (bs : Nat) (w : Writer) (value : List Nat) (h : WF w) :
    WF (Writer.bytes bs w value) ∧
    scope (Writer.bytes bs w value) =
      scope w ++ varintEnc (toUint32 (value.length : Int))
        ++ value.map (fun x => x % 256) ∧
    (Writer.bytes bs w value).stack = w.stack ∧
    (Writer.bytes bs w value).buf.isSome := by
  obtain ⟨u1, u2, u3, u4⟩ := uint32_spec bs w (value.length : Int) h
  set w1 := Writer.uint32 bs w (value.length : Int) with hw1
  simp only [Writer.bytes, ← hw1]
  split
  · next hn =>
    obtain ⟨e1, e2, e3, e4⟩ := ensureLen_spec bs w1 value.length u1
    set w2 := ensureLen bs w1 value.length with hw2
    obtain ⟨g1, g2⟩ := e1
    set mv := value.map (fun x => x % 256) with hmv
    have hml : mv.length = value.length := List.length_map ..
    have hfit : w2.pos + mv.length ≤ (w2.buf.getD []).length := by omega
    obtain ⟨t1, t2⟩ := writeAt_spec (w2.buf.getD []) mv w2.pos hfit
    rw [hml] at t2
    refine ⟨⟨?_, ?_⟩, ?_, ?_, ?_⟩
    · show w2.pos + value.length ≤ w2.len
      omega
    · show (writeAt (w2.buf.getD []) w2.pos mv).length = w2.len
      omega
    · have hscope : w2.bufs.flatten ++
          (writeAt (w2.buf.getD []) w2.pos mv).take (w2.pos + value.length)
          = scope w2 ++ mv := by
        rw [t2]
        simp only [scope]
        rw [List.append_assoc]
      show w2.bufs.flatten ++
          (writeAt (w2.buf.getD []) w2.pos mv).take (w2.pos + value.length)
          = scope w ++ varintEnc (toUint32 (value.length : Int)) ++ mv
      rw [hscope, e2, u2]
    · show w2.stack = w.stack
      exact e4.trans u3
    · rfl
  · next hn =>
    have hv : value = [] := by
      rcases value with _ | _
      · rfl
      · simp at hn
    subst hv
    exact ⟨u1, by simpa using u2, u3, u4⟩

/-! ### The zigzag map -/

/-- Closed form of the 32-bit zigzag map on in-range inputs. -/
theorem zigzagN_eq (v : Int) (h1 : -2147483648 ≤ v) (h2 : v < 2147483648) :
    zigzagN v = if 0 ≤ v then (2 * v).toNat else (-2 * v - 1).toNat := by
  unfold zigzagN toUint32 zigzag32 int32of
  split_ifs <;> omega

/-! ### The finish concatenation loop -/

theorem setAll_spec : ∀ (cs : List (List Nat)) (pre : List Nat) (s : Nat),
    setAll (pre ++ List.replicate ((cs.map List.length).sum + s) 0) cs pre.length
      = some (pre ++ cs.flatten ++ List.replicate s 0,
              pre.length + (cs.map List.length).sum) := by
  intro cs
  induction cs with
  | nil =>
    intro pre s
    simp [setAll]
  | cons c cs ih =>
    intro pre s
    have harr : pre ++ List.replicate (((c :: cs).map List.length).sum + s) 0
        = pre ++ List.replicate (c.length + ((cs.map List.length).sum + s)) 0 := by
      simp only [List.map_cons, List.sum_cons]
      rw [Nat.add_assoc]
    rw [harr]
    simp only [setAll, arraySet]
    have hfit : pre.length + c.length ≤
        (pre ++ List.replicate (c.length + ((cs.map List.length).sum + s)) 0).length := by
      simp only [List.length_append, List.length_replicate]
      omega
    rw [if_pos hfit]
    have hw : writeAt (pre ++ List.replicate (c.length + ((cs.map List.length).sum + s)) 0)
        pre.length c
        = (pre ++ c) ++ List.replicate ((cs.map List.length).sum + s) 0 := by
      unfold writeAt
      have htake : (pre ++ List.replicate (c.length + ((cs.map List.length).sum + s)) 0).take
          pre.length = pre := List.take_left ..
      have hdrop : (pre ++ List.replicate (c.length + ((cs.map List.length).sum + s)) 0).drop
          (pre.length + c.length) = List.replicate ((cs.map List.length).sum + s) 0 := by
        rw [List.drop_append, List.drop_replicate]
        congr 1
        omega
      rw [htake, hdrop, List.append_assoc]
    rw [hw]
    have hoff : pre.length + c.length = (pre ++ c).length := (List.length_append ..).symm
    rw [hoff]
    show setAll ((pre ++ c) ++ List.replicate ((cs.map List.length).sum + s) 0) cs
        (pre ++ c).length = _
    rw [ih (pre ++ c) s]
    simp only [List.flatten_cons, List.map_cons, List.sum_cons, List.append_assoc,
      List.length_append]
    rw [Nat.add_assoc]

/-- The `BufferWriter` finish always returns the current scope's bytes when
an active buffer is present. -/
theorem finishB_ok (clear : Bool) (w : Writer) (b : List Nat) (h1 : w.buf = some b) :
    (BufferWriter.finish clear w).1 = .ok (scope w) := by
  rcases w with ⟨buf, pos, len, bufs, stack⟩
  cases h1
  simp only [BufferWriter.finish, scope, Option.getD_some]
  cases bufs with
  | nil => simp
  | cons c cs =>
    by_cases hp : pos = 0
    · subst hp
      simp
    · simp only [List.isEmpty_cons, if_neg hp, hp, ne_eq, not_false_eq_true, if_true,
        Bool.false_eq_true]
      simp [List.flatten_append]

theorem setAll_spec0 (cs : List (List Nat)) (s : Nat) :
    setAll (List.replicate ((cs.map List.length).sum + s) 0) cs 0
      = some (cs.flatten ++ List.replicate s 0, (cs.map List.length).sum) := by
  simpa using setAll_spec cs [] s

/-- With an active buffer present and a well-formed cursor, the generic
typed-array finish and the BufferWriter finish return identical results and
identical successor states. -/
theorem finish_variants_agree (clear : Bool) (w : Writer) (b : List Nat)
    (h1 : w.buf = some b) (h2 : b.length = w.len) (h3 : w.pos ≤ w.len) :
    Writer.finish clear w = BufferWriter.finish clear w := by
  rcases w with ⟨buf, pos, len, bufs, stack⟩
  cases h1
  simp only at h2 h3
  have hfst : (Writer.finish clear ⟨some b, pos, len, bufs, stack⟩).1
      = (BufferWriter.finish clear ⟨some b, pos, len, bufs, stack⟩).1 := by
    simp only [Writer.finish, BufferWriter.finish]
    cases bufs with
    | nil =>
      by_cases hpl : pos < len
      · by_cases hp0 : pos = 0
        · subst hp0
          simp [hpl]
        · simp [hpl, hp0]
      · have hpe : pos = len := by omega
        subst hpe
        have : b.take pos = b := by
          rw [← h2]
          exact List.take_length ..
        simp [hpl, this]
    | cons c cs =>
      have hrep : List.replicate (pos + ((c :: cs).map List.length).sum) 0
          = List.replicate (((c :: cs).map List.length).sum + pos) 0 := by
        rw [Nat.add_comm]
      have hflatlen : ((c :: cs).flatten).length = ((c :: cs).map List.length).sum :=
        List.length_flatten ..
      simp only [List.isEmpty_cons, Bool.false_eq_true, if_false, hrep,
        setAll_spec0 (c :: cs) pos]
      by_cases hpl : pos < len
      · by_cases hp0 : pos = 0
        · subst hp0
          simp only [hpl, if_true, ne_eq, not_true_eq_false, if_false,
            List.length_nil, arraySet, List.length_append, List.length_replicate]
          rw [if_pos (by omega)]
          simp only [writeAt, hflatlen, List.take_left ..]
          rw [List.take_of_length_le (by simp [List.length_flatten]),
            List.drop_eq_nil_of_le (by simp [List.length_flatten])]
          simp
        · have hb2 : (b.take pos).length = pos := List.length_take_of_le (by omega)
          simp only [hpl, if_true, hp0, ne_eq, not_false_eq_true, if_true,
            arraySet, List.length_append, List.length_replicate, hb2]
          rw [if_pos (by omega)]
          simp only [writeAt, hb2]
          have htk : ((c :: cs).flatten ++ List.replicate pos 0).take
              (((c :: cs).map List.length).sum) = (c :: cs).flatten := by
            rw [← hflatlen]
            exact List.take_left ..
          have hdr : ((c :: cs).flatten ++ List.replicate pos 0).drop
              (((c :: cs).map List.length).sum + pos) = [] := by
            rw [← hflatlen, List.drop_append, List.drop_replicate]
            simp
          rw [htk, hdr]
          simp [List.flatten_append]
      · have hpe : pos = len := by omega
        subst hpe
        have hbp : b.take pos = b := by
          rw [← h2]
          exact List.take_length ..
        have hb2 : b.length = pos := h2
        by_cases hp0 : pos = 0
        · have hbnil : b = [] := List.length_eq_zero.mp (by omega)
          subst hbnil
          subst hp0
          simp only [hpl, if_false, ne_eq, not_true_eq_false, if_false,
            arraySet, List.length_append, List.length_replicate, List.length_nil]
          rw [if_pos (by omega)]
          simp only [writeAt, hflatlen, List.take_left ..]
          rw [List.take_of_length_le (by simp [List.length_flatten]),
            List.drop_eq_nil_of_le (by simp [List.length_flatten])]
          simp
        · simp only [hpl, if_false, hp0, ne_eq, not_false_eq_true, if_true,
            arraySet, List.length_append, List.length_replicate, hb2]
          rw [if_pos (by omega)]
          simp only [writeAt, hb2]
          have htk : ((c :: cs).flatten ++ List.replicate pos 0).take
              (((c :: cs).map List.length).sum) = (c :: cs).flatten := by
            rw [← hflatlen]
            exact List.take_left ..
          have hdr : ((c :: cs).flatten ++ List.replicate pos 0).drop
              (((c :: cs).map List.length).sum + pos) = [] := by
            rw [← hflatlen, List.drop_append, List.drop_replicate]
            simp
          rw [htk, hdr]
          simp [List.flatten_append, hbp]
  have hsnd : (Writer.finish clear ⟨some b, pos, len, bufs, stack⟩).2
      = (BufferWriter.finish clear ⟨some b, pos, len, bufs, stack⟩).2 := rfl
  exact Prod.ext hfst hsnd

/-- With an active buffer present and a well-formed cursor, the generic
finish returns exactly the current scope's bytes. -/
theorem finish_ok (clear : Bool) (w : Writer) (b : List Nat)
    (h1 : w.buf = some b) (h2 : b.length = w.len) (h3 : w.pos ≤ w.len) :
    (Writer.finish clear w).1 = .ok (scope w) := by
  rw [finish_variants_agree clear w b h1 h2 h3]
  exact finishB_ok clear w b h1

/-- With no active buffer and no chunks, the generic finish returns the
JavaScript `null` value. -/
theorem finish_nullRes (clear : Bool) (w : Writer) (h1 : w.buf = none)
    (h2 : w.bufs = []) : (Writer.finish clear w).1 = .nullRes := by
  rcases w with ⟨buf, pos, len, bufs, stack⟩
  cases h1
  simp only at h2
  subst h2
  simp [Writer.finish]

/-! ### Sequences of write operations -/

/-- One scalar write operation of the claims C4/C9 vocabulary. -/
inductive WriteOp where
  | tagOp (id wireType : Nat)
  | uint32Op (value : Int)
  | int32Op (value : Int)
  | sint32Op (value : Int)
  | boolOp (value : Bool)
  | fixed32Op (value : Int)
  | sfixed32Op (value : Int)
  | bytesOp (value : List Nat)
deriving DecidableEq

/-- Apply one write operation (shared by both writer variants: BufferWriter
overrides none of these operations except `bytes`, whose byte-level effect is
identical). -/
def applyOp (bs : Nat) (w : Writer) : WriteOp → Writer
  | .tagOp id wt => Writer.tag bs w id wt
  | .uint32Op v => Writer.uint32 bs w v
  | .int32Op v => Writer.int32 bs w v
  | .sint32Op v => Writer.sint32 bs w v
  | .boolOp v => Writer.bool bs w v
  | .fixed32Op v => Writer.fixed32 bs w v
  | .sfixed32Op v => Writer.sfixed32 bs w v
  | .bytesOp v => Writer.bytes bs w v

/-- The bytes an operation appends to the current scope; note this does not
depend on the configured chunk size or on the writer state. -/
def opBytes : WriteOp → List Nat
  | .tagOp id wt => [(id * 8 % 4294967296 + wt % 8) % 256]
  | .uint32Op v => varintEnc (toUint32 v)
  | .int32Op v => varintEnc (toUint32 v)
  | .sint32Op v => varintEnc (toUint32 (zigzag32 v))
  | .boolOp v => [if v then 1 else 0]
  | .fixed32Op v => fixedBytes32 (toUint32 v)
  | .sfixed32Op v => fixedBytes32 (toUint32 (zigzag32 v))
  | .bytesOp v => varintEnc (toUint32 (v.length : Int)) ++ v.map (fun x => x % 256)

/-- Run a sequence of write operations left to right. -/
def runW (bs : Nat) (ops : List WriteOp) (w : Writer) : Writer :=
  ops.foldl (applyOp bs) w

theorem applyOp_spec (bs : Nat) (w : Writer) (op : WriteOp) (h : WF w) :
    WF (applyOp bs w op) ∧ scope (applyOp bs w op) = scope w ++ opBytes op ∧
    (applyOp bs w op).stack = w.stack ∧ (applyOp bs w op).buf.isSome := by
  cases op with
  | tagOp id wt => exact tag_spec bs w id wt h
  | uint32Op v => exact uint32_spec bs w v h
  | int32Op v => exact uint32_spec bs w v h
  | sint32Op v => exact uint32_spec bs w (zigzag32 v) h
  | boolOp v => exact bool_spec bs w v h
  | fixed32Op v => exact fixed32_spec bs w v h
  | sfixed32Op v => exact fixed32_spec bs w (zigzag32 v) h
  | bytesOp v =>
    obtain ⟨h1, h2, h3, h4⟩ := bytes_spec bs w v h
    refine ⟨h1, ?_, h3, h4⟩
    show scope (Writer.bytes bs w v)
        = scope w ++ (varintEnc (toUint32 (v.length : Int)) ++ v.map (fun x => x % 256))
    rw [h2, List.append_assoc]

theorem runW_spec (bs : Nat) : ∀ (ops : List WriteOp) (w : Writer), WF w →
    WF (runW bs ops w) ∧
    scope (runW bs ops w) = scope w ++ (ops.map opBytes).flatten ∧
    (runW bs ops w).stack = w.stack ∧
    (ops ≠ [] → (runW bs ops w).buf.isSome) := by
  intro ops
  induction ops with
  | nil =>
    intro w h
    exact ⟨h, by simp [runW], rfl, fun hc => absurd rfl hc⟩
  | cons o os ih =>
    intro w h
    obtain ⟨a1, a2, a3, a4⟩ := applyOp_spec bs w o h
    obtain ⟨b1, b2, b3, b4⟩ := ih (applyOp bs w o) a1
    have hrun : runW bs (o :: os) w = runW bs os (applyOp bs w o) := rfl
    refine ⟨by rw [hrun]; exact b1, ?_, ?_, ?_⟩
    · rw [hrun, b2, a2]
      simp [List.append_assoc]
    · rw [hrun, b3, a3]
    · intro _
      rw [hrun]
      rcases os with _ | ⟨p, ps⟩
      · exact a4
      · exact b4 (by simp)

/-! ### The claims -/

set_option maxRecDepth 100000

/-- C1: the claimed fork isolation (A, fork, B: first finish returns B's
bytes, second finish returns A's bytes) holds in the BufferWriter variant
but is broken by the cited generic finish: after the first finish restores
the outer scope, the active buffer is null, and the generic chunk
concatenation calls set with it and throws. Evaluation at A = uint32 10,
B = uint32 11, default chunk size 1024. -/
theorem C1_fork_isolation_eval :
    (Writer.finish false (Writer.uint32 1024 (Writer.fork (Writer.uint32 1024 W0 10)) 11)).1
      = .ok [11] ∧
    (BufferWriter.finish false (Writer.uint32 1024 (Writer.fork (Writer.uint32 1024 W0 10)) 11)).1
      = .ok [11] ∧
    (Writer.finish false
      (Writer.finish false (Writer.uint32 1024 (Writer.fork (Writer.uint32 1024 W0 10)) 11)).2).1
      = .err ∧
    (BufferWriter.finish false
      (BufferWriter.finish false
        (Writer.uint32 1024 (Writer.fork (Writer.uint32 1024 W0 10)) 11)).2).1
      = .ok [10] := by
  decide

/-- C2: reset with clear_all = true empties the current chunk list but
leaves the fork stack untouched, contradicting the claim (and the method's
own documentation) that all forked states are cleared: after
uint32 10; fork; reset(true) the stack still holds the saved chunk list
[[10]], and a later reset pops it as a stale current chunk list. -/
theorem C2_reset_clear_eval :
    (Writer.reset true (Writer.fork (Writer.uint32 1024 W0 10))).stack = [[[10]]] ∧
    (Writer.reset true (Writer.fork (Writer.uint32 1024 W0 10))).bufs = [] ∧
    (Writer.reset false (Writer.reset true (Writer.fork (Writer.uint32 1024 W0 10)))).bufs
      = [[10]] := by
  decide

/-- C3: finish does not always return an owned byte sequence: on a freshly
constructed writer the generic variant returns the null active buffer
itself, the BufferWriter variant throws (slice on null), and with sealed
chunks pending but no active buffer the generic concatenation throws
(set with a null source). -/
theorem C3_finish_output_eval :
    (Writer.finish false W0).1 = .nullRes ∧
    (BufferWriter.finish false W0).1 = .err ∧
    (Writer.finish false (Writer.reset false (Writer.fork (Writer.uint32 1024 W0 10)))).1
      = .err := by
  decide

/-- C4 counterexample: the two variants are not observationally identical.
After uint32 10; fork(); reset(); the current scope has pending chunks and
no active buffer; finish() then throws in the generic variant but returns
the chunk bytes in the BufferWriter variant. -/
theorem C4_variants_differ :
    (Writer.finish false (Writer.reset false (Writer.fork (Writer.uint32 1024 W0 10)))).1
      = .err ∧
    (BufferWriter.finish false (Writer.reset false (Writer.fork (Writer.uint32 1024 W0 10)))).1
      = .ok [10] := by
  decide

/-- C4 amended: tag, scalar writes, fork and reset are shared code between
the two variants, and whenever finish() is invoked in a state whose active
buffer is present (with the cursor within the buffer), the generic and the
BufferWriter finish return byte-for-byte identical results and identical
successor states; the variants can differ only when the active buffer is
absent at a finish() call. -/
theorem C4_variants_agree (clear : Bool) (w : Writer) (b : List Nat)
    (h1 : w.buf = some b) (h2 : b.length = w.len) (h3 : w.pos ≤ w.len) :
    Writer.finish clear w = BufferWriter.finish clear w :=
  finish_variants_agree clear w b h1 h2 h3

/-- C4 witness: the amended equivalence at a concrete state. -/
theorem C4_variants_agree_witness :
    Writer.finish false (Writer.uint32 1024 W0 10)
      = BufferWriter.finish false (Writer.uint32 1024 W0 10) :=
  C4_variants_agree false (Writer.uint32 1024 W0 10)
    ((List.replicate 1024 0).set 0 (10 % 256)) (by decide) (by decide) (by decide)

/-- C5: uint32 appends to the current scope exactly the varint bytes of its
value, whose count matches the documented thresholds (1/2/3/4/5 bytes at
128, 16384, 2097152, 268435456), in little-end-first base-128 form with the
0x80 continuation bit on every byte except the last. -/
theorem C5_uint32_varint_law (v : Nat) (hv : v < 4294967296) (bs : Nat) (w : Writer)
    (hw : WF w) :
    scope (Writer.uint32 bs w (v : Int)) = scope w ++ varintEnc v ∧
    (varintEnc v).length = thresholds v ∧
    (∀ x ∈ (varintEnc v).dropLast, 128 ≤ x ∧ x < 256) ∧
    (∀ x ∈ (varintEnc v).drop ((varintEnc v).length - 1), x < 128) ∧
    varintVal (varintEnc v) = v := by
  have hcoe : toUint32 (v : Int) = v := by
    unfold toUint32
    omega
  obtain ⟨_, h2, _, _⟩ := uint32_spec bs w (v : Int) hw
  obtain ⟨f1, f2, f3⟩ := varintEnc_form v
  exact ⟨by rw [h2, hcoe], varintEnc_length v hv, f1, f2, f3⟩

/-- C5 witness: the varint law evaluated at 150 on a fresh writer. -/
theorem C5_uint32_varint_law_witness :
    scope (Writer.uint32 1024 W0 (150 : Int)) = scope W0 ++ varintEnc 150 ∧
    (varintEnc 150).length = thresholds 150 ∧
    varintVal (varintEnc 150) = 150 := by
  obtain ⟨h1, h2, _, _, h5⟩ :=
    C5_uint32_varint_law 150 (by norm_num) 1024 W0 (by decide)
  exact ⟨h1, h2, h5⟩

/-- C6: the buffer-growth primitive establishes at least n free bytes at the
cursor: it allocates a fresh active buffer of size max(n, default chunk
size), zeroes the cursor, seals buffer[0:pos) onto the chunk list exactly
when pos > 0, and preserves the bytes written so far in the current scope. -/
theorem C6_expand_contract (bs : Nat) (w : Writer) (n : Nat) :
    (expand bs w n).pos = 0 ∧
    (expand bs w n).len = max n bs ∧
    (expand bs w n).buf = some (List.replicate (max n bs) 0) ∧
    n ≤ (expand bs w n).len - (expand bs w n).pos ∧
    (expand bs w n).bufs
      = (if w.pos ≠ 0 then w.bufs ++ [(w.buf.getD []).take w.pos] else w.bufs) ∧
    scope (expand bs w n) = scope w := by
  obtain ⟨h1, h2, h3, h4, h5, h6⟩ := expand_spec bs w n
  refine ⟨h3, h4, h5, ?_, ?_, h2⟩
  · rw [h3, h4]
    omega
  · by_cases hp : w.pos = 0 <;> simp [expand, hp]

/-- C7: the 32-bit zigzag map is a bijection between 32-bit signed and
unsigned values: unzigzag inverts it on the signed range, it inverts
unzigzag on the unsigned range, and 0, -1, 1 map to 0, 1, 2. -/
theorem C7_zigzag_bijection (v : Int) (n : Nat)
    (h1 : -2147483648 ≤ v) (h2 : v < 2147483648) (h3 : n < 4294967296) :
    unzigzag32 (zigzagN v) = v ∧
    zigzagN (unzigzag32 n) = n ∧
    zigzagN 0 = 0 ∧ zigzagN (-1) = 1 ∧ zigzagN 1 = 2 := by
  refine ⟨?_, ?_, by decide, by decide, by decide⟩
  · rw [zigzagN_eq v h1 h2]
    unfold unzigzag32
    split_ifs <;> omega
  · unfold unzigzag32
    by_cases hpar : n % 2 = 0
    · rw [if_pos hpar, zigzagN_eq _ (by omega) (by omega)]
      split_ifs <;> omega
    · rw [if_neg hpar, zigzagN_eq _ (by omega) (by omega)]
      split_ifs <;> omega

/-- C7 witness: both inverses at concrete values. -/
theorem C7_zigzag_bijection_witness :
    unzigzag32 (zigzagN (-7)) = -7 ∧ zigzagN (unzigzag32 300) = 300 :=
  ⟨(C7_zigzag_bijection (-7) 300 (by norm_num) (by norm_num) (by norm_num)).1,
   (C7_zigzag_bijection (-7) 300 (by norm_num) (by norm_num) (by norm_num)).2.1⟩

/-- C8 counterexample: fork is also a no-op when the active buffer is
present but the cursor is zero (for example immediately after a previous
fork), so the absent buffer is not the sole exception: the second fork
leaves the stack depth at 1 instead of pushing to 2. -/
theorem C8_fork_noop_cex :
    (Writer.fork (Writer.uint32 1024 W0 5)).buf.isSome = true ∧
    Writer.fork (Writer.fork (Writer.uint32 1024 W0 5))
      = Writer.fork (Writer.uint32 1024 W0 5) ∧
    (Writer.fork (Writer.uint32 1024 W0 5)).stack.length = 1 := by
  decide

/-- C8 amended: when the active buffer is present and the cursor is
positive, fork pushes exactly one saved chunk list (depth d to d+1) and
starts the inner scope with an empty chunk list; the unwritten remainder
becomes the inner active buffer without reallocation when pos < capacity,
and the inner scope has no active buffer when pos = capacity; fork is a
no-op when the active buffer is absent or the cursor is zero. -/
theorem C8_fork_transition :
    (∀ (w : Writer) (b : List Nat), w.buf = some b → 0 < w.pos →
      (Writer.fork w).stack
        = (w.bufs ++ [if w.pos < w.len then b.take w.pos else b]) :: w.stack ∧
      (Writer.fork w).stack.length = w.stack.length + 1 ∧
      (Writer.fork w).bufs = [] ∧
      (Writer.fork w).pos = 0 ∧
      (Writer.fork w).buf = (if w.pos < w.len then some (b.drop w.pos) else none) ∧
      (Writer.fork w).len = (if w.pos < w.len then (b.drop w.pos).length else 0)) ∧
    (∀ w : Writer, w.buf = none ∨ w.pos = 0 → Writer.fork w = w) := by
  constructor
  · intro w b h1 h2
    rcases w with ⟨buf, pos, len, bufs, stack⟩
    cases h1
    simp only at h2
    have hp : pos ≠ 0 := by omega
    by_cases hpl : pos < len <;>
      simp [Writer.fork, hp, hpl]
  · intro w h
    rcases w with ⟨buf, pos, len, bufs, stack⟩
    rcases h with h | h
    · cases h
      rfl
    · simp only at h
      subst h
      cases buf <;> simp [Writer.fork]

/-- C8 witness: the amended transition at a concrete forked state, and the
no-op case on a fresh writer. -/
theorem C8_fork_transition_witness :
    (Writer.fork (Writer.uint32 1024 W0 5)).stack.length
      = (Writer.uint32 1024 W0 5).stack.length + 1 ∧
    Writer.fork W0 = W0 :=
  ⟨(C8_fork_transition.1 (Writer.uint32 1024 W0 5)
      ((List.replicate 1024 0).set 0 (5 % 256)) (by decide) (by decide)).2.1,
   C8_fork_transition.2 W0 (Or.inl rfl)⟩

/-- C9: for any fixed sequence of write operations, the bytes returned by
finish are identical for every positive configured default chunk size; only
the internal chunk boundaries differ. -/
theorem C9_chunk_size_independence (bs1 bs2 : Nat) (h1 : 1 ≤ bs1) (h2 : 1 ≤ bs2)
    (ops : List WriteOp) :
    (Writer.finish false (runW bs1 ops W0)).1
      = (Writer.finish false (runW bs2 ops W0)).1 := by
  have hwf : WF W0 := by decide
  cases ops with
  | nil => rfl
  | cons o os =>
    obtain ⟨wf1, s1, _, b1⟩ := runW_spec bs1 (o :: os) W0 hwf
    obtain ⟨wf2, s2, _, b2⟩ := runW_spec bs2 (o :: os) W0 hwf
    obtain ⟨x1, hx1⟩ := Option.isSome_iff_exists.mp (b1 (by simp))
    obtain ⟨x2, hx2⟩ := Option.isSome_iff_exists.mp (b2 (by simp))
    have e1 : x1.length = (runW bs1 (o :: os) W0).len := by
      have hh := wf1.2
      rw [hx1] at hh
      simpa using hh
    have e2 : x2.length = (runW bs2 (o :: os) W0).len := by
      have hh := wf2.2
      rw [hx2] at hh
      simpa using hh
    rw [finish_ok false _ x1 hx1 e1 wf1.1, finish_ok false _ x2 hx2 e2 wf2.1, s1, s2]

/-- C9 witness: the same bytes for default chunk sizes 1024 and 7. -/
theorem C9_chunk_size_independence_witness :
    (Writer.finish false
      (runW 1024 [WriteOp.uint32Op 300, WriteOp.bytesOp [170, 187]] W0)).1
      = (Writer.finish false
          (runW 7 [WriteOp.uint32Op 300, WriteOp.bytesOp [170, 187]] W0)).1 :=
  C9_chunk_size_independence 1024 7 (by norm_num) (by norm_num)
    [WriteOp.uint32Op 300, WriteOp.bytesOp [170, 187]]

/-- C10: int32 is the same function as uint32; uint32 first coerces its
argument to an unsigned 32-bit value and encodes that, so the emitted varint
always encodes a value below 2^32 in at most 5 bytes; in particular
int32(-1) emits the 5-byte varint of 4294967295. -/
theorem C10_int32_uint32_coercion (value : Int) (bs : Nat) (w : Writer) (hw : WF w) :
    Writer.int32 = Writer.uint32 ∧
    toUint32 value < 4294967296 ∧
    scope (Writer.uint32 bs w value) = scope w ++ varintEnc (toUint32 value) ∧
    (varintEnc (toUint32 value)).length ≤ 5 ∧
    varintEnc (toUint32 (-1)) = [255, 255, 255, 255, 15] := by
  have hv : toUint32 value < 4294967296 := by
    unfold toUint32
    omega
  obtain ⟨_, h2, _, _⟩ := uint32_spec bs w value hw
  have hth : thresholds (toUint32 value) ≤ 5 := by
    unfold thresholds
    split_ifs <;> omega
  refine ⟨rfl, hv, h2, ?_, by decide⟩
  rw [varintEnc_length _ hv]
  exact hth

/-- C10 witness: int32(-1) on a fresh writer appends the 5-byte varint. -/
theorem C10_int32_uint32_coercion_witness :
    scope (Writer.uint32 1024 W0 (-1)) = scope W0 ++ varintEnc (toUint32 (-1)) ∧
    varintEnc (toUint32 (-1)) = [255, 255, 255, 255, 15] := by
  obtain ⟨_, _, h3, _, h5⟩ := C10_int32_uint32_coercion (-1) 1024 W0 (by decide)
  exact ⟨h3, h5⟩

end Protobuf
